import Mathlib

/-!
Verification of `greykite/sklearn/estimator/silverkite_diagnostics.py`
(class `SilverkiteDiagnostics`): a shallow embedding of the component
decomposition (`get_silverkite_components`), the seasonality regrouping
(`group_silverkite_seas_components`), the renderer selection logic
(`plot_silverkite_components`) and the weighting step of
`plot_components`, together with theorems about them.

Numeric cells are modelled as `Rat`; a pandas `DataFrame` is a list of
named columns together with its row count; pandas name-keyed column
assignment is `setCol` (replace in place when the name exists, append
otherwise) and column lookup is `lookupCol`.
-/

set_option autoImplicit false

/-- A named numeric column of a pandas DataFrame. -/
structure SkColumn where
  name : String
  values : List Rat
deriving DecidableEq, Repr

/-- A pandas DataFrame: a row count and a list of named columns
(`shape[0]` is `nrows`, `shape[1]` is `cols.length`). -/
structure SkFrame where
  nrows : Nat
  cols : List SkColumn
deriving DecidableEq, Repr

/-- Well-formedness of a frame: every column has `nrows` entries and
column names are unique (as pandas design matrices have). -/
def SkFrame.wf (f : SkFrame) : Prop :=
  (∀ c ∈ f.cols, c.values.length = f.nrows) ∧ (f.cols.map SkColumn.name).Nodup

instance (f : SkFrame) : Decidable f.wf := by
  unfold SkFrame.wf
  infer_instance

/-- `pandas.DataFrame.empty`: true when either axis has length zero. -/
def SkFrame.emptyQ (f : SkFrame) : Prop :=
  f.nrows = 0 ∨ f.cols = []

instance (f : SkFrame) : Decidable f.emptyQ := by
  unfold SkFrame.emptyQ
  infer_instance

/-- The input dataframe `df` of `get_silverkite_components`, restricted to
the two columns the function reads (`time_col` and `value_col`). -/
structure SkInput where
  time_col : String
  value_col : String
  times : List Rat
  values : List Rat
deriving DecidableEq, Repr

/-- `df.shape[0]`. -/
def SkInput.nrows (df : SkInput) : Nat := df.times.length

/-- Prefix test on character lists (used to embed Python substring search). -/
def listIsPref : List Char → List Char → Bool
  | [], _ => true
  | _ :: _, [] => false
  | a :: as, b :: bs => a == b && listIsPref as bs

/-- Whether `needle` occurs as a contiguous sublist of `hay`. -/
def listHasSub (needle : List Char) : List Char → Bool
  | [] => needle.isEmpty
  | c :: t => listIsPref needle (c :: t) || listHasSub needle t

/-- Python's `needle in hay` for strings. -/
def strContains (hay needle : String) : Bool :=
  listHasSub needle.toList hay.toList

/-- Modelled from the spec: `get_pattern_cols` from
`greykite.common.python_utils` (not in the excerpt) keeps, in order, the
column names matching the positive pattern while excluding any name that
also matches the negative pattern ("patterns are evaluated with a
priority/exclusion rule"). Patterns are modelled as boolean predicates on
names. -/
def get_pattern_cols (cols : List String) (pos : String → Bool)
    (neg : Option (String → Bool)) : List String :=
  cols.filter (fun c => pos c && !(neg.getD (fun _ => false)) c)

/-- Modelled from the spec: one member of `SilverkiteComponentsEnum`
(not in the excerpt): a seasonality key with its y-axis label, "also used
as the name-pattern substring for column classification". -/
structure SeasMeta where
  key : String
  ylabel : String
deriving DecidableEq, Repr

/-- Modelled from the spec: the constants collaborator of the module —
the reserved naming patterns `cst.TREND_REGEX`, `cst.SEASONALITY_REGEX`,
`cst.LAG_REGEX`, `cst.EVENT_REGEX` (as predicates on column names), the
enumerated seasonality keys, and the external changepoint extractor
`get_trend_changepoint_dates_from_cols` (returning the extracted
changepoint timestamps; `[]` models `None`/no changepoints). -/
structure SkCtx where
  trendPat : String → Bool
  seasPat : String → Bool
  lagPat : String → Bool
  eventPat : String → Bool
  seasEnum : List SeasMeta
  cpExtract : List String → List Rat

/-- Name-keyed column assignment, `table[name] = vals` in pandas:
replaces the first column of that name in place, else appends. -/
def setCol : List SkColumn → String → List Rat → List SkColumn
  | [], n, v => [⟨n, v⟩]
  | c :: t, n, v => if c.name = n then ⟨n, v⟩ :: t else c :: setCol t n v

/-- Name-keyed column lookup, `table[name]` in pandas. -/
def lookupCol (t : List SkColumn) (n : String) : Option (List Rat) :=
  (t.find? (fun c => c.name == n)).map SkColumn.values

/-- The column names of a table, in order. -/
def colNames (t : List SkColumn) : List String :=
  t.map SkColumn.name

/-- The values of the first column of `f` named `n` (`[]` if absent). -/
def SkFrame.colVals (f : SkFrame) (n : String) : List Rat :=
  ((f.cols.find? (fun c => c.name == n)).map SkColumn.values).getD []

/-- `feature_df[names].sum(axis=1)`: the row-wise sum of the selected
columns. -/
def SkFrame.selSum (f : SkFrame) (names : List String) : List Rat :=
  (List.range f.nrows).map (fun i =>
    (names.map (fun n => (f.colVals n).getD i 0)).sum)

/-- `feature_df.sum(axis=1)`: the row-wise sum over all columns. -/
def SkFrame.rowTotal (f : SkFrame) : List Rat :=
  (List.range f.nrows).map (fun i =>
    (f.cols.map (fun c => c.values.getD i 0)).sum)

/-- The trend columns: names matching the trend pattern and not the
seasonality or lag pattern (line 249 of the source). -/
def trendCols (ctx : SkCtx) (f : SkFrame) : List String :=
  get_pattern_cols (colNames f.cols) ctx.trendPat
    (some (fun c => ctx.seasPat c || ctx.lagPat c))

/-- The lag columns (line 254). -/
def lagCols (ctx : SkCtx) (f : SkFrame) : List String :=
  get_pattern_cols (colNames f.cols) ctx.lagPat none

/-- The autoregression columns: lag columns whose name contains
`value_col` (line 256). -/
def arCols (ctx : SkCtx) (df : SkInput) (f : SkFrame) : List String :=
  (lagCols ctx f).filter (fun c => strContains c df.value_col)

/-- The lagged-regressor columns: lag columns whose name does not contain
`value_col` (line 259). -/
def lrCols (ctx : SkCtx) (df : SkInput) (f : SkFrame) : List String :=
  (lagCols ctx f).filter (fun c => !strContains c df.value_col)

/-- The seasonality columns (line 264). -/
def seasCols (ctx : SkCtx) (f : SkFrame) : List String :=
  get_pattern_cols (colNames f.cols) ctx.seasPat none

/-- The columns of one seasonality key: seasonality columns whose name
contains the key's y-label (lines 267-268). -/
def spCols (sc : List String) (m : SeasMeta) : List String :=
  get_pattern_cols sc (fun c => strContains c m.ylabel) none

/-- The event columns (line 273). -/
def eventCols (ctx : SkCtx) (f : SkFrame) : List String :=
  get_pattern_cols (colNames f.cols) ctx.eventPat none

/-- `components = df[[time_col, value_col]]` (line 246). -/
def baseTable (df : SkInput) : List SkColumn :=
  [⟨df.time_col, df.times⟩, ⟨df.value_col, df.values⟩]

/-- Lines 249-251: add the `trend` column when any name classified. -/
def stageTrend (ctx : SkCtx) (df : SkInput) (f : SkFrame) : List SkColumn :=
  if trendCols ctx f = [] then baseTable df
  else setCol (baseTable df) "trend" (f.selSum (trendCols ctx f))

/-- Lines 256-258: the table after possibly adding `autoregression`. -/
def stageAr (ctx : SkCtx) (df : SkInput) (f : SkFrame) : List SkColumn :=
  if arCols ctx df f = [] then stageTrend ctx df f
  else setCol (stageTrend ctx df f) "autoregression" (f.selSum (arCols ctx df f))

/-- Lines 253-261: add `autoregression` / `lagged_regressor` columns. -/
def stageLag (ctx : SkCtx) (df : SkInput) (f : SkFrame) : List SkColumn :=
  if lagCols ctx f = [] then stageTrend ctx df f
  else if lrCols ctx df f = [] then stageAr ctx df f
  else setCol (stageAr ctx df f) "lagged_regressor" (f.selSum (lrCols ctx df f))

/-- Lines 265-270: the loop over the seasonality enumeration, adding one
column named after each key with a non-empty classification. -/
def addSeasCols (f : SkFrame) (sc : List String) :
    List SeasMeta → List SkColumn → List SkColumn
  | [], t => t
  | m :: ms, t =>
    addSeasCols f sc ms
      (if spCols sc m = [] then t else setCol t m.key (f.selSum (spCols sc m)))

/-- Lines 263-270 assembled. -/
def stageSeas (ctx : SkCtx) (df : SkInput) (f : SkFrame) : List SkColumn :=
  addSeasCols f (seasCols ctx f) ctx.seasEnum (stageLag ctx df f)

/-- Lines 272-275: the `events` column. -/
def stageEvents (ctx : SkCtx) (df : SkInput) (f : SkFrame) : List SkColumn :=
  if eventCols ctx f = [] then stageSeas ctx df f
  else setCol (stageSeas ctx df f) "events" (f.selSum (eventCols ctx f))

/-- Line 278: `df[value_col].values - feature_df.sum(axis=1).values`. -/
def residualVals (df : SkInput) (f : SkFrame) : List Rat :=
  List.zipWith (fun a b => a - b) df.values f.rowTotal

/-- Lines 277-278: the `residual` column. -/
def stageResidual (ctx : SkCtx) (df : SkInput) (f : SkFrame) : List SkColumn :=
  setCol (stageEvents ctx df f) "residual" (residualVals df f)

/-- Line 286: the 0/1 changepoint indicator values. -/
def cpVals (ctx : SkCtx) (df : SkInput) (f : SkFrame) : List Rat :=
  df.times.map (fun t =>
    if (ctx.cpExtract (trendCols ctx f)).contains t then (1 : Rat) else 0)

/-- Lines 245-289 after input validation: the components table. -/
def build_components (ctx : SkCtx) (df : SkInput) (f : SkFrame) : List SkColumn :=
  if trendCols ctx f = [] then stageResidual ctx df f
  else if ctx.cpExtract (trendCols ctx f) = [] then stageResidual ctx df f
  else setCol (stageResidual ctx df f) "trend_changepoints" (cpVals ctx df f)

/-- `get_silverkite_components` (lines 179-289): input validation
(lines 239-243) followed by the table construction. `none` models a
`None` `feature_df`. -/
def get_silverkite_components (ctx : SkCtx) (df : SkInput)
    (feature_df : Option SkFrame) : Except String (List SkColumn) :=
  match feature_df with
  | none => .error "feature_df must be non-empty"
  | some f =>
    if f.emptyQ then .error "feature_df must be non-empty"
    else if df.nrows ≠ f.nrows then
      .error "df and feature_df must have same number of rows."
    else .ok (build_components ctx df f)

/-- Modelled from the spec: the display metadata of a seasonality key used
by the regrouper — the grouping time-feature extractor ("derive a cyclical
or calendar grouping feature from each timestamp", e.g. hour-of-day) and
the two axis labels. `add_groupby_column` and `grouping_evaluation` are
not in the excerpt. -/
structure SeasGroupMeta where
  groupby : Rat → Int
  xlabel : String
  ylabel : String

/-- The output of the regrouper: renamed axis labels and one row per
distinct derived-feature value, in ascending key order (pandas `groupby`
sorts group keys). -/
structure GroupedTable where
  xlabel : String
  ylabel : String
  rows : List (Int × Rat)
deriving DecidableEq, Repr

/-- Modelled from the spec: `group_silverkite_seas_components`
(lines 291-328) — "group rows by that derived feature, and reduce each
group to the arithmetic mean of the component column", renaming the
grouping column to the x-label and the value column to the y-label. The
input is the two-column (time, component) table as a list of rows. -/
def group_silverkite_seas_components (m : SeasGroupMeta)
    (rows : List (Rat × Rat)) : GroupedTable :=
  let keys := ((rows.map (fun r => m.groupby r.1)).dedup).insertionSort (· ≤ ·)
  { xlabel := m.xlabel
    ylabel := m.ylabel
    rows := keys.map (fun k =>
      let vs := (rows.filter (fun r => m.groupby r.1 == k)).map Prod.snd
      (k, vs.sum / (vs.length : Rat))) }

/-- The renderer's output, abstracted from the plotly figure: the names
read from the first two columns, the list of panel names in render order,
and the deduplicated warned-about absent names (empty when no warning is
emitted). -/
structure PlotResult where
  time_label : String
  value_label : String
  panels : List String
  warned : List String
deriving DecidableEq, Repr

/-- `plot_silverkite_components` (lines 330-432), selection logic
(lines 366-391): read `time_col, value_col` from the first two column
positions, strip the `trend_changepoints` column, then keep either all
non-time columns (for `names = None`) or the requested names in table
column order, raising when nothing matches, warning about absent names,
and forcing `value_col` to be the first panel. -/
def plot_silverkite_components (comps : List SkColumn)
    (names : Option (List String)) : Except String PlotResult :=
  match comps with
  | c0 :: c1 :: _ =>
    let time_col := c0.name
    let value_col := c1.name
    let comps2 := comps.filter (fun c => c.name ≠ "trend_changepoints")
    match names with
    | none => .ok ⟨time_col, value_col, (colNames comps2).drop 1, []⟩
    | some ns =>
      let names_kept := (colNames comps2).filter (fun c => ns.contains c)
      let names_removed :=
        (ns.filter (fun n => !(colNames comps2).contains n)).dedup
      if names_kept = [] then
        .error "None of the provided components have been specified in the model."
      else
        let names_kept2 :=
          if names_kept.head? = some value_col then names_kept
          else value_col :: names_kept
        .ok ⟨time_col, value_col, names_kept2, names_removed⟩
  | _ => .error "not enough values to unpack"

/-- The fitted linear model's attributes read by `plot_components`:
`coef_` (aligned positionally with the design-matrix columns) and
`intercept_`. -/
structure MLModel where
  coef : List Rat
  intercept : Rat
deriving DecidableEq, Repr

/-- Lines 161-166 of `plot_components`: multiply each design-matrix
column by its coefficient and, when the intercept is truthy (non-zero),
add it to the existing `Intercept` column or create that column. -/
def weight_x_mat (x : SkFrame) (mdl : MLModel) : SkFrame :=
  let w := (x.cols.zip mdl.coef).map
    (fun p => SkColumn.mk p.1.name (p.1.values.map (fun v => p.2 * v)))
  let w2 :=
    if mdl.intercept ≠ 0 then
      if "Intercept" ∈ colNames x.cols then
        w.map (fun c =>
          if c.name = "Intercept" then
            SkColumn.mk c.name (c.values.map (fun v => v + mdl.intercept))
          else c)
      else w ++ [SkColumn.mk "Intercept" (List.replicate x.nrows mdl.intercept)]
    else w
  ⟨x.nrows, w2⟩

/-- `plot_components` (lines 126-177): weight the design matrix, decompose,
and render. -/
def plot_components (ctx : SkCtx) (df : SkInput) (x : SkFrame)
    (mdl : MLModel) (names : Option (List String)) : Except String PlotResult := do
  let comps ← get_silverkite_components ctx df (some (weight_x_mat x mdl))
  plot_silverkite_components comps names

/-- Unfolding lemma for `lookupCol` on a cons cell. -/
theorem lookupCol_cons (c : SkColumn) (t : List SkColumn) (m : String) :
    lookupCol (c :: t) m = if c.name = m then some c.values else lookupCol t m := by
  by_cases h : c.name = m
  · have hf : List.find? (fun x => x.name == m) (c :: t) = some c :=
      List.find?_cons_of_pos t (by simpa using h)
    simp [lookupCol, hf, h]
  · have hf : List.find? (fun x => x.name == m) (c :: t) =
        List.find? (fun x => x.name == m) t :=
      List.find?_cons_of_neg t (by simpa using h)
    simp [lookupCol, hf, h]

/-- Looking up the just-assigned column returns the assigned values. -/
theorem lookupCol_setCol_self (t : List SkColumn) (n : String) (v : List Rat) :
    lookupCol (setCol t n v) n = some v := by
  induction t with
  | nil => simp [setCol, lookupCol_cons, lookupCol]
  | cons c t ih =>
    rw [setCol]
    by_cases h : c.name = n
    · rw [if_pos h, lookupCol_cons]
      simp
    · rw [if_neg h, lookupCol_cons, if_neg h]
      exact ih

/-- Assigning one column leaves lookups of other names unchanged. -/
theorem lookupCol_setCol_ne (t : List SkColumn) (n m : String) (v : List Rat)
    (h : m ≠ n) : lookupCol (setCol t n v) m = lookupCol t m := by
  induction t with
  | nil => simp [setCol, lookupCol_cons, lookupCol, Ne.symm h]
  | cons c t ih =>
    rw [setCol]
    by_cases hc : c.name = n
    · rw [if_pos hc, lookupCol_cons, lookupCol_cons, hc, if_neg (Ne.symm h)]
      simp [Ne.symm h]
    · rw [if_neg hc, lookupCol_cons, lookupCol_cons, ih]

/-- Column assignment keeps the name list when the name is present and
appends it otherwise. -/
theorem colNames_setCol (t : List SkColumn) (n : String) (v : List Rat) :
    colNames (setCol t n v) =
      if n ∈ colNames t then colNames t else colNames t ++ [n] := by
  induction t with
  | nil => simp [setCol, colNames]
  | cons c t ih =>
    rw [setCol]
    by_cases h : c.name = n
    · rw [if_pos h]
      have hmem : n ∈ colNames (c :: t) := by simp [colNames, h]
      rw [if_pos hmem]
      simp [colNames, h]
    · rw [if_neg h]
      have hmem : n ∈ colNames (c :: t) ↔ n ∈ colNames t := by
        simp [colNames, Ne.symm h]
      by_cases h2 : n ∈ colNames t
      · rw [if_pos (hmem.mpr h2)]
        have ht : colNames (setCol t n v) = colNames t := by
          rw [ih, if_pos h2]
        simp only [colNames, List.map_cons] at ht ⊢
        rw [ht]
      · rw [if_neg (fun hx => h2 (hmem.mp hx))]
        have ht : colNames (setCol t n v) = colNames t ++ [n] := by
          rw [ih, if_neg h2]
        simp only [colNames, List.map_cons, List.cons_append] at ht ⊢
        rw [ht]

/-- Membership in the names after an assignment. -/
theorem mem_colNames_setCol (t : List SkColumn) (n m : String) (v : List Rat) :
    m ∈ colNames (setCol t n v) ↔ m ∈ colNames t ∨ m = n := by
  rw [colNames_setCol]
  by_cases h : n ∈ colNames t
  · rw [if_pos h]
    constructor
    · exact Or.inl
    · rintro (hm | rfl)
      · exact hm
      · exact h
  · rw [if_neg h]
    simp

/-- Assignment preserves the first two column names. -/
theorem pref2_setCol (t : List SkColumn) (n : String) (v : List Rat)
    (a b : String) (r : List String) (h : colNames t = a :: b :: r) :
    ∃ r', colNames (setCol t n v) = a :: b :: r' := by
  rw [colNames_setCol, h]
  by_cases hm : n ∈ a :: b :: r
  · exact ⟨r, by rw [if_pos hm]⟩
  · exact ⟨r ++ [n], by rw [if_neg hm]; rfl⟩

/-- The seasonality loop does not touch columns whose name is no key. -/
theorem lookupCol_addSeasCols (f : SkFrame) (sc : List String)
    (ms : List SeasMeta) (t : List SkColumn) (n : String)
    (h : ∀ m ∈ ms, m.key ≠ n) :
    lookupCol (addSeasCols f sc ms t) n = lookupCol t n := by
  induction ms generalizing t with
  | nil => rfl
  | cons m ms ih =>
    rw [addSeasCols]
    rw [ih _ (fun x hx => h x (List.mem_cons_of_mem m hx))]
    by_cases hc : spCols sc m = []
    · rw [if_pos hc]
    · rw [if_neg hc, lookupCol_setCol_ne]
      exact Ne.symm (h m (List.mem_cons_self m ms))

/-- The seasonality loop adds no name that is not a key. -/
theorem mem_colNames_addSeasCols_no_key (f : SkFrame) (sc : List String)
    (ms : List SeasMeta) (t : List SkColumn) (k : String)
    (h : ∀ m ∈ ms, m.key ≠ k) :
    k ∈ colNames (addSeasCols f sc ms t) ↔ k ∈ colNames t := by
  induction ms generalizing t with
  | nil => rfl
  | cons m ms ih =>
    rw [addSeasCols]
    rw [ih _ (fun x hx => h x (List.mem_cons_of_mem m hx))]
    by_cases hc : spCols sc m = []
    · rw [if_pos hc]
    · rw [if_neg hc, mem_colNames_setCol]
      have := h m (List.mem_cons_self m ms)
      constructor
      · rintro (hm | rfl)
        · exact hm
        · exact absurd rfl this
      · exact Or.inl

/-- The seasonality loop preserves the first two column names. -/
theorem pref2_addSeasCols (f : SkFrame) (sc : List String)
    (ms : List SeasMeta) (t : List SkColumn)
    (a b : String) (r : List String) (h : colNames t = a :: b :: r) :
    ∃ r', colNames (addSeasCols f sc ms t) = a :: b :: r' := by
  induction ms generalizing t r with
  | nil => exact ⟨r, h⟩
  | cons m ms ih =>
    rw [addSeasCols]
    by_cases hc : spCols sc m = []
    · rw [if_pos hc]
      exact ih t r h
    · rw [if_neg hc]
      obtain ⟨r', hr'⟩ := pref2_setCol t m.key (f.selSum (spCols sc m)) a b r h
      exact ih _ r' hr'

/-- A key's column is present after the loop iff it was already present
or its classification is non-empty (keys assumed distinct). -/
theorem mem_colNames_addSeasCols_key (f : SkFrame) (sc : List String)
    (ms : List SeasMeta) (t : List SkColumn) (m : SeasMeta)
    (hnd : (ms.map SeasMeta.key).Nodup) (hm : m ∈ ms) :
    m.key ∈ colNames (addSeasCols f sc ms t) ↔
      m.key ∈ colNames t ∨ spCols sc m ≠ [] := by
  induction ms generalizing t with
  | nil => exact absurd hm (List.not_mem_nil m)
  | cons m0 ms ih =>
    rw [addSeasCols]
    rcases List.mem_cons.mp hm with rfl | hm'
    · have hk : ∀ x ∈ ms, x.key ≠ m.key := by
        intro x hx
        have := (List.nodup_cons.mp hnd).1
        intro he
        exact this (he ▸ List.mem_map_of_mem SeasMeta.key hx)
      rw [mem_colNames_addSeasCols_no_key f sc ms _ m.key hk]
      by_cases hc : spCols sc m = []
      · rw [if_pos hc]
        simp [hc]
      · rw [if_neg hc, mem_colNames_setCol]
        simp [hc]
    · have hne : m0.key ≠ m.key := by
        have := (List.nodup_cons.mp hnd).1
        intro he
        exact this (he ▸ List.mem_map_of_mem SeasMeta.key hm')
      rw [ih _ (List.nodup_cons.mp hnd).2 hm']
      by_cases hc : spCols sc m0 = []
      · rw [if_pos hc]
      · rw [if_neg hc, mem_colNames_setCol]
        constructor
        · rintro ((h | h) | h)
          · exact Or.inl h
          · exact absurd h.symm hne
          · exact Or.inr h
        · rintro (h | h)
          · exact Or.inl (Or.inl h)
          · exact Or.inr h

/-- Inversion of a successful decomposition: the inputs were accepted and
the result is the constructed table. -/
theorem get_ok_elim {ctx : SkCtx} {df : SkInput} {f : SkFrame}
    {table : List SkColumn}
    (hok : get_silverkite_components ctx df (some f) = .ok table) :
    ¬ f.emptyQ ∧ df.nrows = f.nrows ∧ table = build_components ctx df f := by
  unfold get_silverkite_components at hok
  by_cases h1 : f.emptyQ
  · simp [h1] at hok
  · by_cases h2 : df.nrows = f.nrows
    · refine ⟨h1, h2, ?_⟩
      simp [h1, h2] at hok
      exact hok.symm
    · simp [h1, h2] at hok

/-- If any autoregression column exists, lag columns exist. -/
theorem lagCols_ne_of_ar (ctx : SkCtx) (df : SkInput) (f : SkFrame)
    (h : arCols ctx df f ≠ []) : lagCols ctx f ≠ [] := by
  intro hl
  exact h (by simp [arCols, hl])

/-- If any lagged-regressor column exists, lag columns exist. -/
theorem lagCols_ne_of_lr (ctx : SkCtx) (df : SkInput) (f : SkFrame)
    (h : lrCols ctx df f ≠ []) : lagCols ctx f ≠ [] := by
  intro hl
  exact h (by simp [lrCols, hl])

/-- Lookup of any non-`trend` name passes through the trend stage. -/
theorem lookupCol_stageTrend_ne (ctx : SkCtx) (df : SkInput) (f : SkFrame)
    (n : String) (h : n ≠ "trend") :
    lookupCol (stageTrend ctx df f) n = lookupCol (baseTable df) n := by
  unfold stageTrend
  split_ifs with ht
  · rfl
  · exact lookupCol_setCol_ne _ _ _ _ h

/-- Lookup of any non-`autoregression` name passes through `stageAr`. -/
theorem lookupCol_stageAr_ne (ctx : SkCtx) (df : SkInput) (f : SkFrame)
    (n : String) (h : n ≠ "autoregression") :
    lookupCol (stageAr ctx df f) n = lookupCol (stageTrend ctx df f) n := by
  unfold stageAr
  split_ifs with ht
  · rfl
  · exact lookupCol_setCol_ne _ _ _ _ h

/-- Lookup of a name that is neither lag output passes through `stageLag`. -/
theorem lookupCol_stageLag_ne (ctx : SkCtx) (df : SkInput) (f : SkFrame)
    (n : String) (h1 : n ≠ "autoregression") (h2 : n ≠ "lagged_regressor") :
    lookupCol (stageLag ctx df f) n = lookupCol (stageTrend ctx df f) n := by
  unfold stageLag
  split_ifs with ht hl
  · rfl
  · exact lookupCol_stageAr_ne ctx df f n h1
  · rw [lookupCol_setCol_ne _ _ _ _ h2]
    exact lookupCol_stageAr_ne ctx df f n h1

/-- Lookup of a name that is no seasonality key passes through `stageSeas`. -/
theorem lookupCol_stageSeas_ne (ctx : SkCtx) (df : SkInput) (f : SkFrame)
    (n : String) (h : ∀ m ∈ ctx.seasEnum, m.key ≠ n) :
    lookupCol (stageSeas ctx df f) n = lookupCol (stageLag ctx df f) n :=
  lookupCol_addSeasCols f (seasCols ctx f) ctx.seasEnum _ n h

/-- Lookup of any non-`events` name passes through the events stage. -/
theorem lookupCol_stageEvents_ne (ctx : SkCtx) (df : SkInput) (f : SkFrame)
    (n : String) (h : n ≠ "events") :
    lookupCol (stageEvents ctx df f) n = lookupCol (stageSeas ctx df f) n := by
  unfold stageEvents
  split_ifs with ht
  · rfl
  · exact lookupCol_setCol_ne _ _ _ _ h

/-- Lookup of any non-`residual` name passes through the residual stage. -/
theorem lookupCol_stageResidual_ne (ctx : SkCtx) (df : SkInput) (f : SkFrame)
    (n : String) (h : n ≠ "residual") :
    lookupCol (stageResidual ctx df f) n = lookupCol (stageEvents ctx df f) n :=
  lookupCol_setCol_ne _ _ _ _ h

/-- Lookup of any non-changepoint name passes through the final stage. -/
theorem lookupCol_build_ne (ctx : SkCtx) (df : SkInput) (f : SkFrame)
    (n : String) (h : n ≠ "trend_changepoints") :
    lookupCol (build_components ctx df f) n =
      lookupCol (stageResidual ctx df f) n := by
  unfold build_components
  split_ifs with h1 h2
  · rfl
  · rfl
  · exact lookupCol_setCol_ne _ _ _ _ h

/-- The constructed table always carries the residual values. -/
theorem lookupCol_build_residual (ctx : SkCtx) (df : SkInput) (f : SkFrame) :
    lookupCol (build_components ctx df f) "residual" = some (residualVals df f) := by
  rw [lookupCol_build_ne ctx df f _ (by decide)]
  exact lookupCol_setCol_self _ _ _

/-- The row-wise total has one entry per row. -/
theorem length_rowTotal (f : SkFrame) : f.rowTotal.length = f.nrows := by
  simp [SkFrame.rowTotal]

/-- Entry-wise description of the residual subtraction. -/
theorem getD_zipWith_sub :
    ∀ (as bs : List Rat) (i : Nat), i < as.length → i < bs.length →
      (List.zipWith (fun a b => a - b) as bs).getD i 0 = as.getD i 0 - bs.getD i 0
  | [], _, i, h1, _ => absurd h1 (by simp)
  | _ :: _, [], i, _, h2 => absurd h2 (by simp)
  | a :: as, b :: bs, 0, _, _ => by simp
  | a :: as, b :: bs, i + 1, h1, h2 => by
    simpa using getD_zipWith_sub as bs i (by simpa using h1) (by simpa using h2)

/-- A small concrete pattern context for witnesses: trend names contain
`ct` or `changepoint`, seasonality names contain `sin` or `cos`, lag names
contain `lag`, event names contain the `events_` marker. -/
def wCtx : SkCtx where
  trendPat := fun c => strContains c "ct" || strContains c "changepoint"
  seasPat := fun c => strContains c "sin" || strContains c "cos"
  lagPat := fun c => strContains c "lag"
  eventPat := fun c => strContains c "events_"
  seasEnum := [⟨"DAILY_SEASONALITY", "daily"⟩, ⟨"WEEKLY_SEASONALITY", "weekly"⟩]
  cpExtract := fun _ => []

/-- A concrete input dataframe for witnesses. -/
def wInput : SkInput where
  time_col := "ts"
  value_col := "y"
  times := [0, 1, 2]
  values := [10, 12, 9]

/-- A concrete weighted feature matrix for witnesses. -/
def wFrame : SkFrame where
  nrows := 3
  cols := [⟨"ct1", [1, 1, 1]⟩,
           ⟨"sin1_tod_daily", [1/2, -(1/2), 1/2]⟩,
           ⟨"y_lag1", [2, 3, 4]⟩,
           ⟨"events_C1", [0, 1, 0]⟩]

/-- Claim C1: for every accepted `(df, feature_df)` pair the table's
`residual` column equals the target values minus the row-wise sum of all
`feature_df` columns, and the row-wise sum of all weighted feature
columns plus the residual equals the target at every row, for every
pattern context (hence regardless of classification). -/
theorem C1_residual_reconciliation (ctx : SkCtx) (df : SkInput) (f : SkFrame)
    (table : List SkColumn)
    (hlen : df.values.length = df.times.length)
    (hok : get_silverkite_components ctx df (some f) = .ok table) :
    lookupCol table "residual" =
      some (List.zipWith (fun a b => a - b) df.values f.rowTotal) ∧
    ∀ i, i < df.nrows →
      f.rowTotal.getD i 0 +
        (List.zipWith (fun a b => a - b) df.values f.rowTotal).getD i 0 =
      df.values.getD i 0 := by
  obtain ⟨hne, hrows, rfl⟩ := get_ok_elim hok
  constructor
  · exact lookupCol_build_residual ctx df f
  · intro i hi
    have h1 : i < df.values.length := by rw [hlen]; exact hi
    have h2 : i < f.rowTotal.length := by
      rw [length_rowTotal, ← hrows]; exact hi
    rw [getD_zipWith_sub df.values f.rowTotal i h1 h2]
    ring

/-- Witness for C1 at a concrete accepted input. -/
theorem C1_residual_reconciliation_witness :
    lookupCol (build_components wCtx wInput wFrame) "residual" =
      some (List.zipWith (fun a b => a - b) wInput.values wFrame.rowTotal) ∧
    wFrame.rowTotal.getD 1 0 +
      (List.zipWith (fun a b => a - b) wInput.values wFrame.rowTotal).getD 1 0 =
    wInput.values.getD 1 0 := by
  have h := C1_residual_reconciliation wCtx wInput wFrame
    (build_components wCtx wInput wFrame) (by decide) rfl
  exact ⟨h.1, h.2 1 (by decide)⟩

/-- Claim C2: `get_silverkite_components` raises the empty-input
`ValueError` when `feature_df` is `None` or empty, the row-mismatch
`ValueError` when the row counts differ, and otherwise proceeds to build
the components table with no other error path. -/
theorem C2_error_paths (ctx : SkCtx) (df : SkInput) (fdf : Option SkFrame) :
    (fdf = none →
      get_silverkite_components ctx df fdf = .error "feature_df must be non-empty") ∧
    (∀ f, fdf = some f → f.emptyQ →
      get_silverkite_components ctx df fdf = .error "feature_df must be non-empty") ∧
    (∀ f, fdf = some f → ¬f.emptyQ → df.nrows ≠ f.nrows →
      get_silverkite_components ctx df fdf =
        .error "df and feature_df must have same number of rows.") ∧
    (∀ f, fdf = some f → ¬f.emptyQ → df.nrows = f.nrows →
      get_silverkite_components ctx df fdf = .ok (build_components ctx df f)) := by
  refine ⟨?_, ?_, ?_, ?_⟩
  · rintro rfl
    rfl
  · rintro f rfl he
    simp only [get_silverkite_components]
    rw [if_pos he]
  · rintro f rfl he hr
    simp only [get_silverkite_components]
    rw [if_neg he, if_pos hr]
  · rintro f rfl he hr
    simp only [get_silverkite_components]
    rw [if_neg he, if_neg (fun hc => hc hr)]

/-- Witness for C2: a non-empty frame with a row mismatch yields the
row-mismatch error. -/
theorem C2_error_paths_witness :
    get_silverkite_components wCtx
      (SkInput.mk "ts" "y" [0, 1] [10, 12]) (some wFrame) =
      .error "df and feature_df must have same number of rows." :=
  (C2_error_paths wCtx (SkInput.mk "ts" "y" [0, 1] [10, 12])
    (some wFrame)).2.2.1 wFrame rfl (by decide) (by decide)

/-- Claim C3: a feature column contributes to `trend` iff its name
matches the trend pattern and matches neither the seasonality nor the lag
pattern, and the `trend` column is the row-wise sum of exactly the
columns so classified. -/
theorem C3_trend_exclusion (ctx : SkCtx) (df : SkInput) (f : SkFrame)
    (table : List SkColumn)
    (hok : get_silverkite_components ctx df (some f) = .ok table)
    (hkeys : ∀ m ∈ ctx.seasEnum, m.key ≠ "trend")
    (hne : (colNames f.cols).filter
      (fun c => ctx.trendPat c && !(ctx.seasPat c || ctx.lagPat c)) ≠ []) :
    lookupCol table "trend" =
      some (f.selSum ((colNames f.cols).filter
        (fun c => ctx.trendPat c && !(ctx.seasPat c || ctx.lagPat c)))) := by
  obtain ⟨hne', hrows, rfl⟩ := get_ok_elim hok
  have htc : trendCols ctx f =
      (colNames f.cols).filter
        (fun c => ctx.trendPat c && !(ctx.seasPat c || ctx.lagPat c)) := rfl
  rw [lookupCol_build_ne ctx df f _ (by decide),
    lookupCol_stageResidual_ne ctx df f _ (by decide),
    lookupCol_stageEvents_ne ctx df f _ (by decide),
    lookupCol_stageSeas_ne ctx df f _ hkeys,
    lookupCol_stageLag_ne ctx df f _ (by decide) (by decide)]
  unfold stageTrend
  rw [htc, if_neg hne]
  exact lookupCol_setCol_self _ _ _

/-- Witness for C3 at a concrete accepted input with a trend column. -/
theorem C3_trend_exclusion_witness :
    lookupCol (build_components wCtx wInput wFrame) "trend" =
      some (wFrame.selSum ((colNames wFrame.cols).filter
        (fun c => wCtx.trendPat c && !(wCtx.seasPat c || wCtx.lagPat c)))) :=
  C3_trend_exclusion wCtx wInput wFrame _ rfl (by decide) (by decide)

/-- The base table holds exactly the time and value columns. -/
theorem mem_colNames_baseTable (df : SkInput) (k : String) :
    k ∈ colNames (baseTable df) ↔ k = df.time_col ∨ k = df.value_col := by
  simp [baseTable, colNames]

/-- Name membership after the trend stage. -/
theorem mem_colNames_stageTrend (ctx : SkCtx) (df : SkInput) (f : SkFrame)
    (k : String) :
    k ∈ colNames (stageTrend ctx df f) ↔
      k ∈ colNames (baseTable df) ∨ (k = "trend" ∧ trendCols ctx f ≠ []) := by
  unfold stageTrend
  split_ifs with h
  · simp [h]
  · rw [mem_colNames_setCol]
    constructor
    · rintro (hm | rfl)
      · exact Or.inl hm
      · exact Or.inr ⟨rfl, h⟩
    · rintro (hm | ⟨rfl, _⟩)
      · exact Or.inl hm
      · exact Or.inr rfl

/-- Name membership after the autoregression step. -/
theorem mem_colNames_stageAr (ctx : SkCtx) (df : SkInput) (f : SkFrame)
    (k : String) :
    k ∈ colNames (stageAr ctx df f) ↔
      k ∈ colNames (stageTrend ctx df f) ∨
      (k = "autoregression" ∧ arCols ctx df f ≠ []) := by
  unfold stageAr
  split_ifs with h
  · simp [h]
  · rw [mem_colNames_setCol]
    constructor
    · rintro (hm | rfl)
      · exact Or.inl hm
      · exact Or.inr ⟨rfl, h⟩
    · rintro (hm | ⟨rfl, _⟩)
      · exact Or.inl hm
      · exact Or.inr rfl

/-- Name membership after the whole lag stage. -/
theorem mem_colNames_stageLag (ctx : SkCtx) (df : SkInput) (f : SkFrame)
    (k : String) :
    k ∈ colNames (stageLag ctx df f) ↔
      k ∈ colNames (stageTrend ctx df f) ∨
      (k = "autoregression" ∧ arCols ctx df f ≠ []) ∨
      (k = "lagged_regressor" ∧ lrCols ctx df f ≠ []) := by
  unfold stageLag
  split_ifs with h1 h2
  · have ha : arCols ctx df f = [] := by simp [arCols, h1]
    have hr : lrCols ctx df f = [] := by simp [lrCols, h1]
    simp [ha, hr]
  · rw [mem_colNames_stageAr]
    simp [h2]
  · rw [mem_colNames_setCol, mem_colNames_stageAr]
    constructor
    · rintro ((hm | hk) | rfl)
      · exact Or.inl hm
      · exact Or.inr (Or.inl hk)
      · exact Or.inr (Or.inr ⟨rfl, h2⟩)
    · rintro (hm | hk | ⟨rfl, _⟩)
      · exact Or.inl (Or.inl hm)
      · exact Or.inl (Or.inr hk)
      · exact Or.inr rfl

/-- The seasonality stage adds no name that is not one of its keys. -/
theorem mem_colNames_stageSeas_no_key (ctx : SkCtx) (df : SkInput)
    (f : SkFrame) (k : String) (h : ∀ m ∈ ctx.seasEnum, m.key ≠ k) :
    k ∈ colNames (stageSeas ctx df f) ↔ k ∈ colNames (stageLag ctx df f) :=
  mem_colNames_addSeasCols_no_key f _ _ _ _ h

/-- Presence of one key's column after the seasonality stage. -/
theorem mem_colNames_stageSeas_key (ctx : SkCtx) (df : SkInput) (f : SkFrame)
    (m : SeasMeta) (hnd : (ctx.seasEnum.map SeasMeta.key).Nodup)
    (hm : m ∈ ctx.seasEnum) :
    m.key ∈ colNames (stageSeas ctx df f) ↔
      m.key ∈ colNames (stageLag ctx df f) ∨ spCols (seasCols ctx f) m ≠ [] :=
  mem_colNames_addSeasCols_key f _ _ _ m hnd hm

/-- Name membership after the events stage. -/
theorem mem_colNames_stageEvents (ctx : SkCtx) (df : SkInput) (f : SkFrame)
    (k : String) :
    k ∈ colNames (stageEvents ctx df f) ↔
      k ∈ colNames (stageSeas ctx df f) ∨
      (k = "events" ∧ eventCols ctx f ≠ []) := by
  unfold stageEvents
  split_ifs with h
  · simp [h]
  · rw [mem_colNames_setCol]
    constructor
    · rintro (hm | rfl)
      · exact Or.inl hm
      · exact Or.inr ⟨rfl, h⟩
    · rintro (hm | ⟨rfl, _⟩)
      · exact Or.inl hm
      · exact Or.inr rfl

/-- Name membership after the residual stage. -/
theorem mem_colNames_stageResidual (ctx : SkCtx) (df : SkInput) (f : SkFrame)
    (k : String) :
    k ∈ colNames (stageResidual ctx df f) ↔
      k ∈ colNames (stageEvents ctx df f) ∨ k = "residual" := by
  unfold stageResidual
  rw [mem_colNames_setCol]

/-- Name membership in the finished table. -/
theorem mem_colNames_build (ctx : SkCtx) (df : SkInput) (f : SkFrame)
    (k : String) :
    k ∈ colNames (build_components ctx df f) ↔
      k ∈ colNames (stageResidual ctx df f) ∨
      (k = "trend_changepoints" ∧ trendCols ctx f ≠ [] ∧
        ctx.cpExtract (trendCols ctx f) ≠ []) := by
  unfold build_components
  split_ifs with h1 h2
  · simp [h1]
  · simp [h2]
  · rw [mem_colNames_setCol]
    constructor
    · rintro (hm | rfl)
      · exact Or.inl hm
      · exact Or.inr ⟨rfl, h1, h2⟩
    · rintro (hm | ⟨rfl, _⟩)
      · exact Or.inl hm
      · exact Or.inr rfl

/-- The output column names reserved by the decomposition. -/
def reservedNames : List String :=
  ["trend", "autoregression", "lagged_regressor", "events", "residual",
   "trend_changepoints"]

/-- Conventional naming: the caller's time/value columns and the
configured seasonality keys avoid the reserved output names and each
other (the source's naming conventions guarantee this). -/
def hygienic (ctx : SkCtx) (df : SkInput) : Prop :=
  df.time_col ∉ reservedNames ∧ df.value_col ∉ reservedNames ∧
  (∀ m ∈ ctx.seasEnum,
    m.key ∉ reservedNames ∧ m.key ≠ df.time_col ∧ m.key ≠ df.value_col) ∧
  (ctx.seasEnum.map SeasMeta.key).Nodup

instance (ctx : SkCtx) (df : SkInput) : Decidable (hygienic ctx df) := by
  unfold hygienic
  infer_instance

/-- Under conventional naming no reserved name sits in the base table. -/
theorem hygienic_base_not_mem (ctx : SkCtx) (df : SkInput)
    (hh : hygienic ctx df) (k : String) (hk : k ∈ reservedNames) :
    k ∉ colNames (baseTable df) := by
  rw [mem_colNames_baseTable]
  rintro (rfl | rfl)
  · exact hh.1 hk
  · exact hh.2.1 hk

/-- Under conventional naming no seasonality key is a reserved name. -/
theorem hygienic_key_ne (ctx : SkCtx) (df : SkInput) (hh : hygienic ctx df)
    (m : SeasMeta) (hm : m ∈ ctx.seasEnum) (k : String)
    (hk : k ∈ reservedNames) : m.key ≠ k := by
  rintro rfl
  exact (hh.2.2.1 m hm).1 hk

/-- Claim C4: each semantic column (`trend`, `autoregression`,
`lagged_regressor`, each seasonality key, `events`) is present in the
result iff at least one feature column matches its classification; absent
categories yield no column at all. -/
theorem C4_column_presence (ctx : SkCtx) (df : SkInput) (f : SkFrame)
    (table : List SkColumn)
    (hok : get_silverkite_components ctx df (some f) = .ok table)
    (hh : hygienic ctx df) :
    ("trend" ∈ colNames table ↔ trendCols ctx f ≠ []) ∧
    ("autoregression" ∈ colNames table ↔ arCols ctx df f ≠ []) ∧
    ("lagged_regressor" ∈ colNames table ↔ lrCols ctx df f ≠ []) ∧
    (∀ m ∈ ctx.seasEnum,
      (m.key ∈ colNames table ↔ spCols (seasCols ctx f) m ≠ [])) ∧
    ("events" ∈ colNames table ↔ eventCols ctx f ≠ []) := by
  obtain ⟨hne, hrows, rfl⟩ := get_ok_elim hok
  refine ⟨?_, ?_, ?_, ?_, ?_⟩
  · have hbase := hygienic_base_not_mem ctx df hh "trend" (by decide)
    have hks : ∀ m ∈ ctx.seasEnum, m.key ≠ "trend" := fun m hm =>
      hygienic_key_ne ctx df hh m hm _ (by decide)
    rw [mem_colNames_build, mem_colNames_stageResidual, mem_colNames_stageEvents,
      mem_colNames_stageSeas_no_key ctx df f _ hks, mem_colNames_stageLag,
      mem_colNames_stageTrend]
    simp [hbase]
  · have hbase := hygienic_base_not_mem ctx df hh "autoregression" (by decide)
    have hks : ∀ m ∈ ctx.seasEnum, m.key ≠ "autoregression" := fun m hm =>
      hygienic_key_ne ctx df hh m hm _ (by decide)
    rw [mem_colNames_build, mem_colNames_stageResidual, mem_colNames_stageEvents,
      mem_colNames_stageSeas_no_key ctx df f _ hks, mem_colNames_stageLag,
      mem_colNames_stageTrend]
    simp [hbase]
  · have hbase := hygienic_base_not_mem ctx df hh "lagged_regressor" (by decide)
    have hks : ∀ m ∈ ctx.seasEnum, m.key ≠ "lagged_regressor" := fun m hm =>
      hygienic_key_ne ctx df hh m hm _ (by decide)
    rw [mem_colNames_build, mem_colNames_stageResidual, mem_colNames_stageEvents,
      mem_colNames_stageSeas_no_key ctx df f _ hks, mem_colNames_stageLag,
      mem_colNames_stageTrend]
    simp [hbase]
  · intro m hm
    have hres := (hh.2.2.1 m hm).1
    have h1 : m.key ≠ "trend" := hygienic_key_ne ctx df hh m hm _ (by decide)
    have h2 : m.key ≠ "autoregression" := hygienic_key_ne ctx df hh m hm _ (by decide)
    have h3 : m.key ≠ "lagged_regressor" := hygienic_key_ne ctx df hh m hm _ (by decide)
    have h4 : m.key ≠ "events" := hygienic_key_ne ctx df hh m hm _ (by decide)
    have h5 : m.key ≠ "residual" := hygienic_key_ne ctx df hh m hm _ (by decide)
    have h6 : m.key ≠ "trend_changepoints" := hygienic_key_ne ctx df hh m hm _ (by decide)
    have hbase : m.key ∉ colNames (baseTable df) := by
      rw [mem_colNames_baseTable]
      rintro (he | he)
      · exact (hh.2.2.1 m hm).2.1 he
      · exact (hh.2.2.1 m hm).2.2 he
    rw [mem_colNames_build, mem_colNames_stageResidual, mem_colNames_stageEvents,
      mem_colNames_stageSeas_key ctx df f m hh.2.2.2 hm, mem_colNames_stageLag,
      mem_colNames_stageTrend]
    simp [hbase, h1, h2, h3, h4, h5, h6]
  · have hbase := hygienic_base_not_mem ctx df hh "events" (by decide)
    have hks : ∀ m ∈ ctx.seasEnum, m.key ≠ "events" := fun m hm =>
      hygienic_key_ne ctx df hh m hm _ (by decide)
    rw [mem_colNames_build, mem_colNames_stageResidual, mem_colNames_stageEvents,
      mem_colNames_stageSeas_no_key ctx df f _ hks, mem_colNames_stageLag,
      mem_colNames_stageTrend]
    simp [hbase]

/-- Witness for C4: concrete presence equivalences for the trend column
and the daily seasonality key. -/
theorem C4_column_presence_witness :
    ("trend" ∈ colNames (build_components wCtx wInput wFrame) ↔
      trendCols wCtx wFrame ≠ []) ∧
    ("DAILY_SEASONALITY" ∈ colNames (build_components wCtx wInput wFrame) ↔
      spCols (seasCols wCtx wFrame) ⟨"DAILY_SEASONALITY", "daily"⟩ ≠ []) := by
  have h := C4_column_presence wCtx wInput wFrame _ rfl (by decide)
  exact ⟨h.1, h.2.2.2.1 ⟨"DAILY_SEASONALITY", "daily"⟩ (by decide)⟩

/-- When autoregression columns exist the lag stage records their sum. -/
theorem lookupCol_stageLag_ar (ctx : SkCtx) (df : SkInput) (f : SkFrame)
    (har : arCols ctx df f ≠ []) :
    lookupCol (stageLag ctx df f) "autoregression" =
      some (f.selSum (arCols ctx df f)) := by
  have hsa : lookupCol (stageAr ctx df f) "autoregression" =
      some (f.selSum (arCols ctx df f)) := by
    unfold stageAr
    rw [if_neg har]
    exact lookupCol_setCol_self _ _ _
  unfold stageLag
  rw [if_neg (lagCols_ne_of_ar ctx df f har)]
  split_ifs with h2
  · exact hsa
  · rw [lookupCol_setCol_ne _ _ _ _ (by decide)]
    exact hsa

/-- When lagged-regressor columns exist the lag stage records their sum. -/
theorem lookupCol_stageLag_lr (ctx : SkCtx) (df : SkInput) (f : SkFrame)
    (hlr : lrCols ctx df f ≠ []) :
    lookupCol (stageLag ctx df f) "lagged_regressor" =
      some (f.selSum (lrCols ctx df f)) := by
  unfold stageLag
  rw [if_neg (lagCols_ne_of_lr ctx df f hlr), if_neg hlr]
  exact lookupCol_setCol_self _ _ _

/-- Claim C5: among the lag-pattern columns, those containing the target
value column's name feed `autoregression` and the rest feed
`lagged_regressor`; the two sets partition the lag columns and each
output column appears exactly when its set is non-empty, holding its
row-wise sum. -/
theorem C5_lag_partition (ctx : SkCtx) (df : SkInput) (f : SkFrame)
    (table : List SkColumn)
    (hok : get_silverkite_components ctx df (some f) = .ok table)
    (hh : hygienic ctx df) :
    (∀ c ∈ lagCols ctx f,
      (c ∈ arCols ctx df f ↔ strContains c df.value_col = true) ∧
      (c ∈ lrCols ctx df f ↔ ¬strContains c df.value_col = true)) ∧
    (∀ c, c ∈ lagCols ctx f ↔ (c ∈ arCols ctx df f ∨ c ∈ lrCols ctx df f)) ∧
    (∀ c, ¬(c ∈ arCols ctx df f ∧ c ∈ lrCols ctx df f)) ∧
    (arCols ctx df f ≠ [] →
      lookupCol table "autoregression" = some (f.selSum (arCols ctx df f))) ∧
    (arCols ctx df f = [] → "autoregression" ∉ colNames table) ∧
    (lrCols ctx df f ≠ [] →
      lookupCol table "lagged_regressor" = some (f.selSum (lrCols ctx df f))) ∧
    (lrCols ctx df f = [] → "lagged_regressor" ∉ colNames table) := by
  obtain ⟨hne, hrows, rfl⟩ := get_ok_elim hok
  have hksAr : ∀ m ∈ ctx.seasEnum, m.key ≠ "autoregression" := fun m hm =>
    hygienic_key_ne ctx df hh m hm _ (by decide)
  have hksLr : ∀ m ∈ ctx.seasEnum, m.key ≠ "lagged_regressor" := fun m hm =>
    hygienic_key_ne ctx df hh m hm _ (by decide)
  refine ⟨?_, ?_, ?_, ?_, ?_, ?_, ?_⟩
  · intro c hc
    constructor
    · simp [arCols, List.mem_filter, hc]
    · simp [lrCols, List.mem_filter, hc]
  · intro c
    simp only [arCols, lrCols, List.mem_filter]
    constructor
    · intro hc
      by_cases hs : strContains c df.value_col
      · exact Or.inl ⟨hc, hs⟩
      · exact Or.inr ⟨hc, by simp [hs]⟩
    · rintro (⟨hc, _⟩ | ⟨hc, _⟩) <;> exact hc
  · rintro c ⟨ha, hl⟩
    rw [arCols, List.mem_filter] at ha
    rw [lrCols, List.mem_filter] at hl
    rw [ha.2] at hl
    exact absurd hl.2 (by simp)
  · intro har
    rw [lookupCol_build_ne ctx df f _ (by decide),
      lookupCol_stageResidual_ne ctx df f _ (by decide),
      lookupCol_stageEvents_ne ctx df f _ (by decide),
      lookupCol_stageSeas_ne ctx df f _ hksAr]
    exact lookupCol_stageLag_ar ctx df f har
  · intro har
    have hbase := hygienic_base_not_mem ctx df hh "autoregression" (by decide)
    rw [mem_colNames_build, mem_colNames_stageResidual, mem_colNames_stageEvents,
      mem_colNames_stageSeas_no_key ctx df f _ hksAr, mem_colNames_stageLag,
      mem_colNames_stageTrend]
    simp [hbase, har]
  · intro hlr
    rw [lookupCol_build_ne ctx df f _ (by decide),
      lookupCol_stageResidual_ne ctx df f _ (by decide),
      lookupCol_stageEvents_ne ctx df f _ (by decide),
      lookupCol_stageSeas_ne ctx df f _ hksLr]
    exact lookupCol_stageLag_lr ctx df f hlr
  · intro hlr
    have hbase := hygienic_base_not_mem ctx df hh "lagged_regressor" (by decide)
    rw [mem_colNames_build, mem_colNames_stageResidual, mem_colNames_stageEvents,
      mem_colNames_stageSeas_no_key ctx df f _ hksLr, mem_colNames_stageLag,
      mem_colNames_stageTrend]
    simp [hbase, hlr]

/-- Witness for C5: the concrete lag column `y_lag1` contains the value
column name `y`, so it feeds `autoregression`, and no lagged-regressor
column is produced. -/
theorem C5_lag_partition_witness :
    lookupCol (build_components wCtx wInput wFrame) "autoregression" =
      some (wFrame.selSum (arCols wCtx wInput wFrame)) ∧
    "lagged_regressor" ∉ colNames (build_components wCtx wInput wFrame) := by
  have h := C5_lag_partition wCtx wInput wFrame _ rfl (by decide)
  exact ⟨h.2.2.2.1 (by decide), h.2.2.2.2.2.2 (by decide)⟩

/-- Claim C7: with `names = None` the figure has exactly one panel per
non-time, non-changepoint column, in table column order, the value
column's panel first. -/
theorem C7_names_none (c0 c1 : SkColumn) (rest : List SkColumn)
    (h0 : c0.name ≠ "trend_changepoints") (h1 : c1.name ≠ "trend_changepoints") :
    plot_silverkite_components (c0 :: c1 :: rest) none =
      .ok ⟨c0.name, c1.name,
        c1.name :: colNames (rest.filter (fun c => c.name ≠ "trend_changepoints")),
        []⟩ := by
  simp [plot_silverkite_components, colNames, h0, h1]

/-- Concrete first column for renderer witnesses. -/
def wC0 : SkColumn := ⟨"ts", [0, 1, 2]⟩

/-- Concrete second column for renderer witnesses. -/
def wC1 : SkColumn := ⟨"y", [10, 12, 9]⟩

/-- Concrete remaining columns (with a changepoint indicator) for
renderer witnesses. -/
def wRest : List SkColumn :=
  [⟨"trend", [1, 1, 1]⟩, ⟨"residual", [0, 0, 0]⟩,
   ⟨"trend_changepoints", [0, 1, 0]⟩]

/-- Witness for C7 on a concrete table with a changepoint column. -/
theorem C7_names_none_witness :
    plot_silverkite_components (wC0 :: wC1 :: wRest) none =
      .ok ⟨wC0.name, wC1.name,
        wC1.name :: colNames (wRest.filter (fun c => c.name ≠ "trend_changepoints")),
        []⟩ :=
  C7_names_none wC0 wC1 wRest (by decide) (by decide)

/-- Claim C6: with a non-`None` `names` list, an empty intersection with
the (changepoint-stripped) table columns raises the `ValueError` and no
figure is produced; otherwise the render succeeds with the matching
subset in table column order, the absent names recorded for the warning,
and the value column always the first panel (inserted in front when it
was not already the first kept name). -/
theorem C6_names_selection (c0 c1 : SkColumn) (rest : List SkColumn)
    (ns : List String) :
    ((colNames ((c0 :: c1 :: rest).filter
          (fun c => c.name ≠ "trend_changepoints"))).filter
        (fun c => ns.contains c) = [] →
      plot_silverkite_components (c0 :: c1 :: rest) (some ns) =
        .error "None of the provided components have been specified in the model.") ∧
    (∀ kept,
      kept = (colNames ((c0 :: c1 :: rest).filter
          (fun c => c.name ≠ "trend_changepoints"))).filter
        (fun c => ns.contains c) →
      kept ≠ [] →
      plot_silverkite_components (c0 :: c1 :: rest) (some ns) =
        .ok ⟨c0.name, c1.name,
          (if kept.head? = some c1.name then kept else c1.name :: kept),
          (ns.filter (fun n => !(colNames ((c0 :: c1 :: rest).filter
            (fun c => c.name ≠ "trend_changepoints"))).contains n)).dedup⟩ ∧
      (if kept.head? = some c1.name then kept else c1.name :: kept).head? =
        some c1.name ∧
      kept.Sublist (colNames ((c0 :: c1 :: rest).filter
        (fun c => c.name ≠ "trend_changepoints")))) := by
  constructor
  · intro hk
    simp only [plot_silverkite_components]
    rw [if_pos hk]
  · intro kept hkdef hk
    refine ⟨?_, ?_, ?_⟩
    · simp only [plot_silverkite_components]
      rw [← hkdef, if_neg hk]
    · by_cases hh : kept.head? = some c1.name
      · rw [if_pos hh]
        exact hh
      · rw [if_neg hh]
        rfl
    · rw [hkdef]
      exact List.filter_sublist _

/-- The kept names of the concrete C6 witness selection. -/
def wKept : List String :=
  (colNames ((wC0 :: wC1 :: wRest).filter
      (fun c => c.name ≠ "trend_changepoints"))).filter
    (fun c => (["trend", "foo"] : List String).contains c)

/-- Witness for C6: one valid and one invalid requested name on a
concrete table. -/
theorem C6_names_selection_witness :
    plot_silverkite_components (wC0 :: wC1 :: wRest) (some ["trend", "foo"]) =
      .ok ⟨wC0.name, wC1.name,
        (if wKept.head? = some wC1.name then wKept else wC1.name :: wKept),
        ((["trend", "foo"] : List String).filter
          (fun n => !(colNames ((wC0 :: wC1 :: wRest).filter
            (fun c => c.name ≠ "trend_changepoints"))).contains n)).dedup⟩ ∧
    (if wKept.head? = some wC1.name then wKept else wC1.name :: wKept).head? =
      some wC1.name ∧
    wKept.Sublist (colNames ((wC0 :: wC1 :: wRest).filter
      (fun c => c.name ≠ "trend_changepoints"))) :=
  (C6_names_selection wC0 wC1 wRest ["trend", "foo"]).2 wKept rfl (by decide)

/-- The constructed table always starts with the time and value columns. -/
theorem pref2_build (ctx : SkCtx) (df : SkInput) (f : SkFrame) :
    ∃ r, colNames (build_components ctx df f) =
      df.time_col :: df.value_col :: r := by
  have h0 : colNames (baseTable df) = df.time_col :: df.value_col :: [] := by
    simp [baseTable, colNames]
  have h1 : ∃ r, colNames (stageTrend ctx df f) =
      df.time_col :: df.value_col :: r := by
    unfold stageTrend
    split_ifs with h
    · exact ⟨[], h0⟩
    · exact pref2_setCol _ _ _ _ _ _ h0
  obtain ⟨r1, h1⟩ := h1
  have h2 : ∃ r, colNames (stageAr ctx df f) =
      df.time_col :: df.value_col :: r := by
    unfold stageAr
    split_ifs with h
    · exact ⟨r1, h1⟩
    · exact pref2_setCol _ _ _ _ _ _ h1
  obtain ⟨r2, h2⟩ := h2
  have h3 : ∃ r, colNames (stageLag ctx df f) =
      df.time_col :: df.value_col :: r := by
    unfold stageLag
    split_ifs with ha hb
    · exact ⟨r1, h1⟩
    · exact ⟨r2, h2⟩
    · exact pref2_setCol _ _ _ _ _ _ h2
  obtain ⟨r3, h3⟩ := h3
  obtain ⟨r4, h4⟩ :=
    pref2_addSeasCols f (seasCols ctx f) ctx.seasEnum (stageLag ctx df f)
      df.time_col df.value_col r3 h3
  have h4' : colNames (stageSeas ctx df f) =
      df.time_col :: df.value_col :: r4 := h4
  have h5 : ∃ r, colNames (stageEvents ctx df f) =
      df.time_col :: df.value_col :: r := by
    unfold stageEvents
    split_ifs with h
    · exact ⟨r4, h4'⟩
    · exact pref2_setCol _ _ _ _ _ _ h4'
  obtain ⟨r5, h5⟩ := h5
  obtain ⟨r6, h6⟩ :=
    pref2_setCol (stageEvents ctx df f) "residual" (residualVals df f)
      df.time_col df.value_col r5 h5
  have h6' : colNames (stageResidual ctx df f) =
      df.time_col :: df.value_col :: r6 := h6
  unfold build_components
  split_ifs with ha hb
  · exact ⟨r6, h6'⟩
  · exact ⟨r6, h6'⟩
  · exact pref2_setCol _ _ _ _ _ _ h6'

/-- Claim C10: the first two columns of every decomposition result are
the time column and the value column in that order, and the renderer,
which reads those labels from the first two positions, recovers exactly
them. -/
theorem C10_interface_order (ctx : SkCtx) (df : SkInput) (f : SkFrame)
    (table : List SkColumn)
    (hok : get_silverkite_components ctx df (some f) = .ok table) :
    (∃ r, colNames table = df.time_col :: df.value_col :: r) ∧
    (∀ res, plot_silverkite_components table none = .ok res →
      res.time_label = df.time_col ∧ res.value_label = df.value_col) := by
  obtain ⟨hne, hrows, htab⟩ := get_ok_elim hok
  obtain ⟨r, hr⟩ := pref2_build ctx df f
  rw [← htab] at hr
  refine ⟨⟨r, hr⟩, ?_⟩
  cases table with
  | nil => simp [colNames] at hr
  | cons c0 t1 =>
    cases t1 with
    | nil => simp [colNames] at hr
    | cons c1 rest =>
      simp only [colNames, List.map_cons, List.cons.injEq] at hr
      obtain ⟨h0, h1, _⟩ := hr
      intro res hres
      simp only [plot_silverkite_components] at hres
      rw [Except.ok.injEq] at hres
      rw [← hres]
      exact ⟨h0, h1⟩

/-- Witness for C10 at the concrete accepted input. -/
theorem C10_interface_order_witness :
    colNames (build_components wCtx wInput wFrame) =
      wInput.time_col :: wInput.value_col ::
        ["trend", "autoregression", "DAILY_SEASONALITY", "events", "residual"] ∧
    (PlotResult.mk "ts" "y"
        ["y", "trend", "autoregression", "DAILY_SEASONALITY", "events", "residual"]
        []).time_label = wInput.time_col ∧
    (PlotResult.mk "ts" "y"
        ["y", "trend", "autoregression", "DAILY_SEASONALITY", "events", "residual"]
        []).value_label = wInput.value_col := by
  have h := C10_interface_order wCtx wInput wFrame _ rfl
  exact ⟨by decide, h.2 _ rfl⟩

/-- Claim C8: regrouping a two-column (time, seasonality) table is
insensitive to the order of the input rows — any permutation yields the
same grouped output — while the aggregation is not invertible: two
different inputs can regroup to the same output. -/
theorem C8_regroup_invariance :
    (∀ (m : SeasGroupMeta) (rows rows' : List (Rat × Rat)), rows.Perm rows' →
      group_silverkite_seas_components m rows =
        group_silverkite_seas_components m rows') ∧
    (∃ (m : SeasGroupMeta) (ra rb : List (Rat × Rat)), ra ≠ rb ∧
      group_silverkite_seas_components m ra =
        group_silverkite_seas_components m rb) := by
  constructor
  · intro m rows rows' hperm
    simp only [group_silverkite_seas_components]
    have hkeys : ((rows.map (fun r => m.groupby r.1)).dedup).insertionSort (· ≤ ·) =
        ((rows'.map (fun r => m.groupby r.1)).dedup).insertionSort (· ≤ ·) :=
      List.eq_of_perm_of_sorted
        (((List.perm_insertionSort _ _).trans ((hperm.map _).dedup)).trans
          (List.perm_insertionSort _ _).symm)
        (List.sorted_insertionSort _ _) (List.sorted_insertionSort _ _)
    rw [hkeys]
    apply congrArg (GroupedTable.mk m.xlabel m.ylabel)
    apply List.map_congr_left
    intro k _
    have hmap : ((rows.filter (fun r => m.groupby r.1 == k)).map Prod.snd).Perm
        ((rows'.filter (fun r => m.groupby r.1 == k)).map Prod.snd) :=
      (hperm.filter _).map _
    rw [hmap.sum_eq, hmap.length_eq]
  · refine ⟨⟨fun _ => 0, "x", "y"⟩, [(0, 0), (1, 2)], [(0, 1), (1, 1)],
      by decide, ?_⟩
    norm_num [group_silverkite_seas_components, List.dedup_cons_of_mem,
      List.dedup_cons_of_not_mem, List.insertionSort, List.orderedInsert]

/-- Witness for C8: a concrete permutation of a three-row table. -/
theorem C8_regroup_invariance_witness :
    group_silverkite_seas_components ⟨fun r => r.num, "Hour of day", "daily"⟩
        [(0, 1), (1, 5), (0, 3)] =
      group_silverkite_seas_components ⟨fun r => r.num, "Hour of day", "daily"⟩
        [(1, 5), (0, 3), (0, 1)] :=
  C8_regroup_invariance.1 _ _ _ (by decide)

/-- Default column for positional access in statements. -/
def dfltCol : SkColumn := ⟨"", []⟩

/-- Positional access into the zipped-and-mapped weighting. -/
theorem getD_zipMap (fW : SkColumn × Rat → SkColumn) :
    ∀ (as : List SkColumn) (bs : List Rat) (i : Nat), i < as.length →
      i < bs.length →
      ((as.zip bs).map fW).getD i dfltCol = fW (as.getD i dfltCol, bs.getD i 0)
  | [], _, i, h1, _ => absurd h1 (by simp)
  | _ :: _, [], i, _, h2 => absurd h2 (by simp)
  | a :: as, b :: bs, 0, _, _ => by simp
  | a :: as, b :: bs, i + 1, h1, h2 => by
    simpa using getD_zipMap fW as bs i (by simpa using h1) (by simpa using h2)

/-- Positional access commutes with an in-bounds map. -/
theorem getD_map_col (g : SkColumn → SkColumn) :
    ∀ (l : List SkColumn) (i : Nat), i < l.length →
      (l.map g).getD i dfltCol = g (l.getD i dfltCol)
  | [], i, h => absurd h (by simp)
  | a :: l, 0, _ => by simp
  | a :: l, i + 1, h => by simpa using getD_map_col g l i (by simpa using h)

/-- In-bounds positional access stays inside the appended-to list. -/
theorem getD_append_lt :
    ∀ (l l' : List SkColumn) (i : Nat), i < l.length →
      (l ++ l').getD i dfltCol = l.getD i dfltCol
  | [], _, i, h => absurd h (by simp)
  | a :: l, l', 0, _ => by simp
  | a :: l, l', i + 1, h => by
    simpa using getD_append_lt l l' i (by simpa using h)

/-- In-bounds positional access yields a member. -/
theorem getD_mem_col :
    ∀ (l : List SkColumn) (i : Nat), i < l.length → l.getD i dfltCol ∈ l
  | [], i, h => absurd h (by simp)
  | a :: l, 0, _ => List.mem_cons_self a l
  | a :: l, i + 1, h =>
    List.mem_cons_of_mem a (getD_mem_col l i (by simpa using h))

/-- The coefficient scaling keeps the column names. -/
theorem colNames_wmap :
    ∀ (cols : List SkColumn) (coef : List Rat), cols.length ≤ coef.length →
      colNames ((cols.zip coef).map
        (fun p => SkColumn.mk p.1.name (p.1.values.map (fun v => p.2 * v)))) =
      colNames cols
  | [], _, _ => rfl
  | c :: cols, [], h => absurd h (by simp)
  | c :: cols, b :: coef, h => by
    have ih := colNames_wmap cols coef (by simpa using h)
    show c.name :: colNames ((cols.zip coef).map _) = c.name :: colNames cols
    rw [ih]

/-- A name absent from the table is not found. -/
theorem lookupCol_eq_none (t : List SkColumn) (n : String)
    (h : n ∉ colNames t) : lookupCol t n = none := by
  have hf : List.find? (fun c => c.name == n) t = none := by
    rw [List.find?_eq_none]
    intro c hc hb
    apply h
    have hcn : c.name = n := by simpa using hb
    rw [← hcn]
    exact List.mem_map_of_mem SkColumn.name hc
  simp [lookupCol, hf]

/-- Lookup skips a block in which the name is not found. -/
theorem lookupCol_append_right (t t' : List SkColumn) (n : String)
    (h : lookupCol t n = none) : lookupCol (t ++ t') n = lookupCol t' n := by
  induction t with
  | nil => rfl
  | cons c t ih =>
    rw [lookupCol_cons] at h
    by_cases hc : c.name = n
    · rw [if_pos hc] at h
      exact absurd h (by simp)
    · rw [if_neg hc] at h
      rw [List.cons_append, lookupCol_cons, if_neg hc]
      exact ih h

/-- Claim C9: in `plot_components` the matrix handed to the decomposition
is the design matrix with each column scaled by its fitted coefficient;
with a truthy intercept the intercept is added into an existing
`Intercept` column or appended as a new constant column, and the design
matrix's row count is preserved. -/
theorem C9_weighted_matrix (ctx : SkCtx) (df : SkInput) (x : SkFrame)
    (mdl : MLModel)
    (hc : mdl.coef.length = x.cols.length)
    (hwf : ∀ c ∈ x.cols, c.values.length = x.nrows) :
    (∀ ns, plot_components ctx df x mdl ns =
      (get_silverkite_components ctx df (some (weight_x_mat x mdl))).bind
        (fun comps => plot_silverkite_components comps ns)) ∧
    (weight_x_mat x mdl).nrows = x.nrows ∧
    (∀ c ∈ (weight_x_mat x mdl).cols, c.values.length = x.nrows) ∧
    (∀ i, i < x.cols.length → (x.cols.getD i dfltCol).name ≠ "Intercept" →
      (weight_x_mat x mdl).cols.getD i dfltCol =
        SkColumn.mk (x.cols.getD i dfltCol).name
          ((x.cols.getD i dfltCol).values.map
            (fun v => mdl.coef.getD i 0 * v))) ∧
    (mdl.intercept ≠ 0 → "Intercept" ∉ colNames x.cols →
      lookupCol (weight_x_mat x mdl).cols "Intercept" =
        some (List.replicate x.nrows mdl.intercept)) ∧
    (mdl.intercept ≠ 0 → ∀ i, i < x.cols.length →
      (x.cols.getD i dfltCol).name = "Intercept" →
      (weight_x_mat x mdl).cols.getD i dfltCol =
        SkColumn.mk "Intercept"
          ((x.cols.getD i dfltCol).values.map
            (fun v => mdl.coef.getD i 0 * v + mdl.intercept))) := by
  have hzlen : ((x.cols.zip mdl.coef).map
      (fun p => SkColumn.mk p.1.name (p.1.values.map (fun v => p.2 * v)))).length =
      x.cols.length := by
    rw [List.length_map, List.length_zip, hc, Nat.min_self]
  have hlenw : ∀ c ∈ (x.cols.zip mdl.coef).map
      (fun p => SkColumn.mk p.1.name (p.1.values.map (fun v => p.2 * v))),
      c.values.length = x.nrows := by
    intro c hcmem
    obtain ⟨⟨a, b⟩, hp, rfl⟩ := List.mem_map.mp hcmem
    obtain ⟨h1, _⟩ := List.of_mem_zip hp
    simpa using hwf a h1
  have hwnames : colNames ((x.cols.zip mdl.coef).map
      (fun p => SkColumn.mk p.1.name (p.1.values.map (fun v => p.2 * v)))) =
      colNames x.cols :=
    colNames_wmap x.cols mdl.coef (le_of_eq hc.symm)
  refine ⟨fun ns => rfl, rfl, ?_, ?_, ?_, ?_⟩
  · intro c hcmem
    simp only [weight_x_mat] at hcmem
    split_ifs at hcmem with h1 h2
    · obtain ⟨c', hc', rfl⟩ := List.mem_map.mp hcmem
      by_cases hn : c'.name = "Intercept"
      · simpa [hn] using hlenw c' hc'
      · simpa [hn] using hlenw c' hc'
    · rcases List.mem_append.mp hcmem with hm | hm
      · exact hlenw c hm
      · have hm2 : c = SkColumn.mk "Intercept"
            (List.replicate x.nrows mdl.intercept) := by simpa using hm
        simp [hm2]
    · exact hlenw c hcmem
  · intro i hi hn
    have hi2 : i < mdl.coef.length := by rw [hc]; exact hi
    have hbase := getD_zipMap
      (fun p => SkColumn.mk p.1.name (p.1.values.map (fun v => p.2 * v)))
      x.cols mdl.coef i hi hi2
    simp only [weight_x_mat]
    split_ifs with h1 h2
    · rw [getD_map_col _ _ i (by rw [hzlen]; exact hi), hbase]
      exact if_neg hn
    · rw [getD_append_lt _ _ i (by rw [hzlen]; exact hi), hbase]
    · exact hbase
  · intro h1 hni
    simp only [weight_x_mat]
    rw [if_pos h1, if_neg hni]
    rw [lookupCol_append_right _ _ _
      (lookupCol_eq_none _ _ (by rw [hwnames]; exact hni))]
    simp [lookupCol_cons]
  · intro h1 i hi hn
    have hi2 : i < mdl.coef.length := by rw [hc]; exact hi
    have hmem : "Intercept" ∈ colNames x.cols := by
      rw [← hn]
      exact List.mem_map_of_mem SkColumn.name (getD_mem_col x.cols i hi)
    simp only [weight_x_mat]
    rw [if_pos h1, if_pos hmem]
    rw [getD_map_col _ _ i (by rw [hzlen]; exact hi),
      getD_zipMap (fun p => SkColumn.mk p.1.name
        (p.1.values.map (fun v => p.2 * v))) x.cols mdl.coef i hi hi2]
    refine (if_pos hn).trans ?_
    rw [SkColumn.mk.injEq]
    refine ⟨hn, ?_⟩
    show ((x.cols.getD i dfltCol).values.map
        (fun v => mdl.coef.getD i 0 * v)).map (fun v => v + mdl.intercept) =
      (x.cols.getD i dfltCol).values.map
        (fun v => mdl.coef.getD i 0 * v + mdl.intercept)
    rw [List.map_map]
    exact List.map_congr_left fun v _ => rfl

/-- A concrete design matrix for the C9 witness. -/
def wXMat : SkFrame := ⟨3, [⟨"ct1", [1, 2, 3]⟩, ⟨"y_lag1", [4, 5, 6]⟩]⟩

/-- A concrete fitted model for the C9 witness. -/
def wModel : MLModel := ⟨[2, 3], 5⟩

/-- Witness for C9: scaling and the appended intercept column on concrete
data. -/
theorem C9_weighted_matrix_witness :
    (weight_x_mat wXMat wModel).nrows = wXMat.nrows ∧
    (weight_x_mat wXMat wModel).cols.getD 0 dfltCol =
      SkColumn.mk (wXMat.cols.getD 0 dfltCol).name
        ((wXMat.cols.getD 0 dfltCol).values.map
          (fun v => wModel.coef.getD 0 0 * v)) ∧
    lookupCol (weight_x_mat wXMat wModel).cols "Intercept" =
      some (List.replicate wXMat.nrows wModel.intercept) := by
  have h := C9_weighted_matrix wCtx wInput wXMat wModel (by decide) (by decide)
  exact ⟨h.2.1, h.2.2.2.1 0 (by decide) (by decide),
    h.2.2.2.2.1 (by norm_num [wModel]) (by decide)⟩
